import Mathlib

/-!
Verification of the core claims about the ohm occupancy-mapping engine.

The development shallowly embeds the parts of the code base the claims are
about: voxel keys and the world/key coordinate maps, the Amanatides-Woo line
walker, the ray integrator with its policy flags, ray / clearing patterns,
the GPU NDT batch dispatch, the line-keys query fallback loop and the GPU
region lookup.  World coordinates use exact rationals (`ℚ`) in place of the
C++ `double`; machine integers are `ℤ`/`ℕ` (only equality, ordering and
floor division are used, so overflow is not exercised by the claims).
-/

namespace Ohm

/-- A world-space position (`glm::dvec3`), modelled over exact rationals. -/
structure Vec3 where
  x : ℚ
  y : ℚ
  z : ℚ
deriving DecidableEq

/-- Modelled from the spec: a voxel address is the pair
`(region : i16×3, local : u8×3)` (§3 Key).  Region coordinates are modelled
as unbounded integers and local coordinates as naturals; the claims touch
only equality and the region/local decomposition, not i16/u8 wrap-around. -/
structure Key where
  rx : ℤ
  ry : ℤ
  rz : ℤ
  lx : ℕ
  ly : ℕ
  lz : ℕ
deriving DecidableEq

/-- Modelled from the spec: the global `OccupancyMap` parameters (§3
OccupancyMap): resolution, origin, per-axis region voxel dimensions, the
log-odds increments, the clamps and the occupancy threshold.  The
`OccupancyMap` implementation itself is not among the provided sources. -/
structure MapParams where
  resolution : ℚ
  originX : ℚ
  originY : ℚ
  originZ : ℚ
  dimX : ℕ
  dimY : ℕ
  dimZ : ℕ
  hitValue : ℚ
  missValue : ℚ
  minValue : ℚ
  maxValue : ℚ
  occupancyThresholdValue : ℚ
deriving DecidableEq

/-- Modelled from the spec: the per-axis voxel index of a world coordinate,
`⌊(p - origin) / resolution⌋` (§4.1: half-open cells on the `+` side, floor
semantics for negative coordinates). -/
def axisIndex (o r p : ℚ) : ℤ := ⌊(p - o) / r⌋

/-- Modelled from the spec: decompose per-axis global voxel indices into a
key, region-major (`region = index ÷ dim` flooring, `local = index mod dim`);
`voxelKey(p)` (§3, §4.1) is this applied to the indices of `p`. -/
def keyOfIndices (m : MapParams) (ix iy iz : ℤ) : Key :=
  ⟨ix / (m.dimX : ℤ), iy / (m.dimY : ℤ), iz / (m.dimZ : ℤ),
    (ix % (m.dimX : ℤ)).toNat, (iy % (m.dimY : ℤ)).toNat, (iz % (m.dimZ : ℤ)).toNat⟩

/-- Modelled from the spec: `voxelKey(p) -> Key` maps a world point to the
enclosing voxel key using the map origin and resolution (§4.1). -/
def voxelKey (m : MapParams) (p : Vec3) : Key :=
  keyOfIndices m (axisIndex m.originX m.resolution p.x)
    (axisIndex m.originY m.resolution p.y) (axisIndex m.originZ m.resolution p.z)

/-- The global (region-flattened) voxel index of a key along the x axis. -/
def keyIndexX (m : MapParams) (k : Key) : ℤ := k.rx * (m.dimX : ℤ) + (k.lx : ℤ)

/-- The global voxel index of a key along the y axis. -/
def keyIndexY (m : MapParams) (k : Key) : ℤ := k.ry * (m.dimY : ℤ) + (k.ly : ℤ)

/-- The global voxel index of a key along the z axis. -/
def keyIndexZ (m : MapParams) (k : Key) : ℤ := k.rz * (m.dimZ : ℤ) + (k.lz : ℤ)

/-- Modelled from the spec: `voxelCentre(k) -> f64×3`, the world position of
the centre of the voxel addressed by `k` (§4.1): origin plus
`(global index + 1/2) · resolution` on each axis. -/
def voxelCentre (m : MapParams) (k : Key) : Vec3 :=
  ⟨m.originX + ((keyIndexX m k : ℚ) + 1 / 2) * m.resolution,
    m.originY + ((keyIndexY m k : ℚ) + 1 / 2) * m.resolution,
    m.originZ + ((keyIndexZ m k : ℚ) + 1 / 2) * m.resolution⟩

/-- A key is valid for a map when each local coordinate is below the region
voxel dimension (§3: `local[i] < region_voxel_dim[i]`). -/
def validKey (m : MapParams) (k : Key) : Prop :=
  k.lx < m.dimX ∧ k.ly < m.dimY ∧ k.lz < m.dimZ

/-- Comparison on `Option ℚ` where `none` stands for the `t_max` value of an
axis that never steps (+∞): every finite value is ≤ ∞. -/
def oleq : Option ℚ → Option ℚ → Bool
  | _, none => true
  | none, some _ => false
  | some a, some b => decide (a ≤ b)

/-- Advance a (possibly infinite) `t_max` accumulator by `t_delta`. -/
def bump : Option ℚ → ℚ → Option ℚ
  | none, _ => none
  | some a, d => some (a + d)

/-- Per-axis initialisation data of the 3-D DDA: the initial `t_max`
(`none` = +∞ for a zero direction component), the `t_delta` increment and
the integer step direction. -/
structure AxisDda where
  tmax : Option ℚ
  tdelta : ℚ
  sigma : ℤ
deriving DecidableEq

/-- Modelled from the spec: Amanatides-Woo per-axis setup (§4.4).  For a
positive direction component the first boundary crossed is the upper face of
the start voxel, for a negative one the lower face; a zero component never
steps. -/
def ddaAxisInit (o r s d : ℚ) (i0 : ℤ) : AxisDda :=
  if 0 < d then ⟨some ((o + ((i0 : ℚ) + 1) * r - s) / d), r / d, 1⟩
  else if d < 0 then ⟨some ((o + (i0 : ℚ) * r - s) / d), r / (-d), -1⟩
  else ⟨none, 0, 0⟩

/-- Walker state: current per-axis indices and accumulated `t_max` values. -/
structure DdaState where
  cx : ℤ
  cy : ℤ
  cz : ℤ
  tx : Option ℚ
  ty : Option ℚ
  tz : Option ℚ
deriving DecidableEq

/-- Walker constants: step directions, `t_delta` increments, target index. -/
structure DdaConst where
  sx : ℤ
  sy : ℤ
  sz : ℤ
  dx : ℚ
  dy : ℚ
  dz : ℚ
  gx : ℤ
  gy : ℤ
  gz : ℤ
deriving DecidableEq

/-- Modelled from the spec: the step axis is the axis with the smallest
accumulated `t_max`, compared with ≤ so that ties break by axis order
`x < y < z` (§4.4). -/
def ddaChoose (tx ty tz : Option ℚ) : ℕ :=
  if oleq tx ty && oleq tx tz then 0
  else if oleq ty tz then 1
  else 2

/-- One DDA step: advance the chosen axis and its `t_max` accumulator. -/
def ddaStep (c : DdaConst) (st : DdaState) : DdaState :=
  match ddaChoose st.tx st.ty st.tz with
  | 0 => ⟨st.cx + c.sx, st.cy, st.cz, bump st.tx c.dx, st.ty, st.tz⟩
  | 1 => ⟨st.cx, st.cy + c.sy, st.cz, st.tx, bump st.ty c.dy, st.tz⟩
  | _ => ⟨st.cx, st.cy, st.cz + c.sz, st.tx, st.ty, bump st.tz c.dz⟩

/-- Modelled from the spec: the walker loop; terminates on reaching the voxel
of the end point (§4.4).  Fuel bounds the walk by the Manhattan distance
between start and end indices, which the DDA step count attains exactly. -/
def ddaLoop (c : DdaConst) : ℕ → DdaState → List (ℤ × ℤ × ℤ)
  | 0, _ => []
  | fuel + 1, st =>
    if (st.cx, st.cy, st.cz) = (c.gx, c.gy, c.gz) then []
    else
      let st2 := ddaStep c st
      (st2.cx, st2.cy, st2.cz) :: ddaLoop c fuel st2

/-- Modelled from the spec: the ordered per-axis index sequence the line
walker visits from `s` to `e` inclusive, starting at `voxelKey(start)`
(§4.4); degenerate rays emit one index triple. -/
def walkIndices (m : MapParams) (s e : Vec3) : List (ℤ × ℤ × ℤ) :=
  let i0x := axisIndex m.originX m.resolution s.x
  let i0y := axisIndex m.originY m.resolution s.y
  let i0z := axisIndex m.originZ m.resolution s.z
  let i1x := axisIndex m.originX m.resolution e.x
  let i1y := axisIndex m.originY m.resolution e.y
  let i1z := axisIndex m.originZ m.resolution e.z
  let ax := ddaAxisInit m.originX m.resolution s.x (e.x - s.x) i0x
  let ay := ddaAxisInit m.originY m.resolution s.y (e.y - s.y) i0y
  let az := ddaAxisInit m.originZ m.resolution s.z (e.z - s.z) i0z
  let fuel := (i1x - i0x).natAbs + (i1y - i0y).natAbs + (i1z - i0z).natAbs
  (i0x, i0y, i0z) ::
    ddaLoop ⟨ax.sigma, ay.sigma, az.sigma, ax.tdelta, ay.tdelta, az.tdelta, i1x, i1y, i1z⟩
      fuel ⟨i0x, i0y, i0z, ax.tmax, ay.tmax, az.tmax⟩

/-- Modelled from the spec: `calculateSegmentKeys(out, start, end, true)`
(§6), the key list of every voxel the segment intersects, in walk order,
end voxel included (§4.4). -/
def calculateSegmentKeys (m : MapParams) (s e : Vec3) : List Key :=
  (walkIndices m s e).map fun i => keyOfIndices m i.1 i.2.1 i.2.2

/-- Modelled from the spec: the `RayFlags` bit set of `integrate_rays`
(§4.5), one boolean per flag. -/
structure RayFlags where
  stopOnFirstOccupied : Bool
  clearOnly : Bool
  endPointAsFree : Bool
  excludeOrigin : Bool
  excludeSample : Bool
  excludeUnobserved : Bool
deriving DecidableEq

/-- From `ClearingPattern::apply` (src/ohm/ClearingPattern.cpp lines 44-45):
the flag set `kRfEndPointAsFree | kRfStopOnFirstOccupied | kRfClearOnly`. -/
def clearingPatternFlags : RayFlags :=
  ⟨true, true, true, false, false, false⟩

/-- The occupancy state of the map: each key holds either the `UNOBSERVED`
sentinel (`none`) or a log-odds value (§3 log-odds semantics). -/
def VoxMap : Type := Key → Option ℚ

/-- The map with no observed voxel. -/
def emptyVoxMap : VoxMap := fun _ => none

/-- Point update of the occupancy state at one key. -/
def updateVoxel (M : VoxMap) (k : Key) (v : Option ℚ) : VoxMap :=
  fun k2 => if k2 = k then v else M k2

/-- Modelled from the spec: saturation to `[min_value, max_value]` (§3). -/
def clampValue (m : MapParams) (v : ℚ) : ℚ :=
  min m.maxValue (max m.minValue v)

/-- Modelled from the spec: the miss update
`clamp(max(min_value, v) + miss_value, min_value, max_value)` with
`UNOBSERVED` treated as `0` (§4.5 update rule). -/
def missValueUpdate (m : MapParams) (v : Option ℚ) : ℚ :=
  clampValue m (max m.minValue (v.getD 0) + m.missValue)

/-- Modelled from the spec: the hit update `+ hit_value` with the same
clamping as a miss (§4.5 update rule). -/
def hitValueUpdate (m : MapParams) (v : Option ℚ) : ℚ :=
  clampValue m (max m.minValue (v.getD 0) + m.hitValue)

/-- Modelled from the spec: a voxel is occupied iff it has a value and that
value is at least the occupancy threshold (§3 log-odds semantics). -/
def isOccupied (m : MapParams) : Option ℚ → Bool
  | none => false
  | some v => decide (m.occupancyThresholdValue ≤ v)

/-- Modelled from the spec: apply a miss to one voxel; with
`ExcludeUnobserved` an unobserved voxel is left untouched (§4.5). -/
def missVoxel (m : MapParams) (f : RayFlags) (v : Option ℚ) : Option ℚ :=
  if f.excludeUnobserved && v.isNone then v else some (missValueUpdate m v)

/-- Modelled from the spec: apply a hit to one voxel; with
`ExcludeUnobserved` an unobserved voxel is left untouched (§4.5, §9). -/
def hitVoxel (m : MapParams) (f : RayFlags) (v : Option ℚ) : Option ℚ :=
  if f.excludeUnobserved && v.isNone then v else some (hitValueUpdate m v)

/-- Modelled from the spec: the endpoint update: skipped under
`ExcludeSample`, a miss under `EndPointAsFree` or `ClearOnly`, otherwise a
hit (§4.5). -/
def sampleVoxel (m : MapParams) (f : RayFlags) (v : Option ℚ) : Option ℚ :=
  if f.excludeSample then v
  else if f.endPointAsFree || f.clearOnly then missVoxel m f v
  else hitVoxel m f v

/-- Modelled from the spec: walk one ray's key sequence, applying misses to
traversed voxels and the endpoint rule to the last key; with
`StopOnFirstOccupied`, traversal stops before updating any voxel already at
or above the occupancy threshold; with `ExcludeOrigin` the first voxel
receives no miss (§4.5). -/
def walkUpdate (m : MapParams) (f : RayFlags) : VoxMap → List Key → Bool → VoxMap
  | M, [], _ => M
  | M, [k], _ =>
    if f.stopOnFirstOccupied && isOccupied m (M k) then M
    else updateVoxel M k (sampleVoxel m f (M k))
  | M, k :: k2 :: rest, first =>
    if f.stopOnFirstOccupied && isOccupied m (M k) then M
    else
      walkUpdate m f
        (if first && f.excludeOrigin then M else updateVoxel M k (missVoxel m f (M k)))
        (k2 :: rest) false

/-- Modelled from the spec: integrate a single (origin, endpoint) ray: walk
the line and update the touched voxels in walk order (§4.5). -/
def integrateRay (m : MapParams) (f : RayFlags) (M : VoxMap) (s e : Vec3) : VoxMap :=
  walkUpdate m f M (calculateSegmentKeys m s e) true

/-- Modelled from the spec: `integrate_rays` over a batch of (origin,
endpoint) pairs, processed in input order (§4.5). -/
def integrateRays (m : MapParams) (f : RayFlags) (rays : List (Vec3 × Vec3))
    (M : VoxMap) : VoxMap :=
  rays.foldl (fun acc r => integrateRay m f acc r.1 r.2) M

/-- Every observed voxel value lies in the clamp interval (§8 law 4). -/
def valuesClamped (m : MapParams) (M : VoxMap) : Prop :=
  ∀ k v, M k = some v → m.minValue ≤ v ∧ v ≤ m.maxValue

/-- Modelled from the spec: a rotation, as a quaternion over rationals
(`glm::dquat`); `RayPattern::buildRays` applies it to the pattern points. -/
structure Quaternion where
  w : ℚ
  x : ℚ
  y : ℚ
  z : ℚ
deriving DecidableEq

/-- Vector addition. -/
def vadd (a b : Vec3) : Vec3 := ⟨a.x + b.x, a.y + b.y, a.z + b.z⟩

/-- Uniform scaling. -/
def smul (s : ℚ) (a : Vec3) : Vec3 := ⟨s * a.x, s * a.y, s * a.z⟩

/-- Cross product. -/
def cross (a b : Vec3) : Vec3 :=
  ⟨a.y * b.z - a.z * b.y, a.z * b.x - a.x * b.z, a.x * b.y - a.y * b.x⟩

/-- Rotation of a vector by a quaternion `q`, via
`v + 2 w (u × v) + 2 (u × (u × v))` with `u` the quaternion vector part. -/
def rotateVec (q : Quaternion) (v : Vec3) : Vec3 :=
  let u : Vec3 := ⟨q.x, q.y, q.z⟩
  let t := smul 2 (cross u v)
  vadd v (vadd (smul q.w t) (cross u t))

/-- The identity rotation. -/
def identityQuaternion : Quaternion := ⟨1, 0, 0, 0⟩

/-- A `RayPattern` owns an ordered list of endpoint offsets
(src/ohm/RayPattern.h; storage detail `RayPatternDetail` is not under the
provided sources). -/
structure RayPattern where
  points : List Vec3
deriving DecidableEq

/-- Modelled from the spec: `build_rays(out, position, rotation, scaling)`
produces a flat array of length `2 × point_count` where each even index
holds `position` and each odd index holds
`position + scaling · (rotation · offset_i)` (§4.6); the `RayPattern.cpp`
implementation is not among the provided sources. -/
def buildRays (p : RayPattern) (position : Vec3) (rotation : Quaternion)
    (scaling : ℚ) : List Vec3 :=
  p.points.flatMap fun pt =>
    [position, vadd position (smul scaling (rotateVec rotation pt))]

/-- Modelled from the spec: `integrate_rays` consumes the flat even-length
ray array as consecutive (origin, endpoint) pairs (§4.5). -/
def pairRays : List Vec3 → List (Vec3 × Vec3)
  | a :: b :: rest => (a, b) :: pairRays rest
  | _ => []

/-- A `ClearingPattern` wraps a `RayPattern` plus an ownership bit
(src/ohm/ClearingPattern.cpp constructor). -/
structure ClearingPattern where
  pattern : RayPattern
  hasPatternOwnership : Bool

/-- From `ClearingPattern::apply` (src/ohm/ClearingPattern.cpp lines 39-46):
build the ray set from the wrapped pattern with the given transform and
integrate it with `kRfEndPointAsFree | kRfStopOnFirstOccupied |
kRfClearOnly`. -/
def ClearingPattern.apply (cp : ClearingPattern) (m : MapParams) (M : VoxMap)
    (position : Vec3) (rotation : Quaternion) (scaling : ℚ) : VoxMap :=
  integrateRays m clearingPatternFlags
    (pairRays (buildRays cp.pattern position rotation scaling)) M

/-- From `GpuNdtMap::finaliseBatch` (src/ohmgpu/GpuNdtMap.cpp line 186): when
the batch flags lack `kRfEndPointAsFree`, the miss/update kernel receives the
flags with `kRfExcludeSample` added, so that the sample voxel is left to the
hit kernel; otherwise the flags pass through unchanged. -/
def ndtMissKernelFlags (f : RayFlags) : RayFlags :=
  if !f.endPointAsFree then { f with excludeSample := true } else f

/-- From `GpuNdtMap::finaliseBatch` (src/ohmgpu/GpuNdtMap.cpp line 207): the
`ndtHit` kernel is enqueued iff the batch flags contain neither
`kRfExcludeSample` nor `kRfEndPointAsFree`.  The hit kernel's argument list
(lines 210-222) carries `hit_value` but no flag word, so when enqueued it
applies the hit update to every ray's sample voxel unconditionally. -/
def ndtHitKernelEnqueued (f : RayFlags) : Bool :=
  !(f.excludeSample || f.endPointAsFree)

/-- Result fields of a line-keys query
(`LineKeysQueryDetail`): per-segment start indices and counts plus the flat
global key list. -/
structure LineKeysResult where
  resultIndices : List ℕ
  resultCounts : List ℕ
  intersectedVoxels : List Key
deriving DecidableEq

/-- The key list of one segment of a line-keys query batch. -/
def segmentKeysOf (m : MapParams) (r : Vec3 × Vec3) : List Key :=
  calculateSegmentKeys m r.1 r.2

/-- From the CPU fallback loop of `LineKeysQueryGpu::onExecute`
(src/ohmgpu/LineKeysQueryGpu.cpp lines 296-306): per segment, record the
current global key-list length as the start index, the segment's key count,
and append the segment's keys to the global list. -/
def lineKeysStep (m : MapParams) (acc : LineKeysResult) (r : Vec3 × Vec3) :
    LineKeysResult :=
  ⟨acc.resultIndices ++ [acc.intersectedVoxels.length],
    acc.resultCounts ++ [(segmentKeysOf m r).length],
    acc.intersectedVoxels ++ segmentKeysOf m r⟩

/-- From `LineKeysQueryGpu::onExecute` (src/ohmgpu/LineKeysQueryGpu.cpp lines
293-308): run the fallback loop over the ray batch.  `stale` is the content
`intersected_voxels` carries on entry (empty for a fresh query; `onReset`
clears only the index/count arrays). -/
def lineKeysOnExecute (m : MapParams) (rays : List (Vec3 × Vec3))
    (stale : List Key) : LineKeysResult :=
  rays.foldl (lineKeysStep m) ⟨[], [], stale⟩

/-- A map paired with its occupancy state, for frame-effect statements. -/
structure MapState where
  params : MapParams
  voxels : VoxMap

/-- From `LineKeysQueryGpu::onExecute` (src/ohmgpu/LineKeysQueryGpu.cpp lines
264-311): the query against a map state.  Both the GPU path and the CPU
fallback only read the map (resolution, origin, region dimensions, and
`calculateSegmentKeys`, which walks a segment without touching chunks) and
write only the query's own result fields, so the map state passes through. -/
def lineKeysOnExecuteState (st : MapState) (rays : List (Vec3 × Vec3))
    (stale : List Key) : LineKeysResult × MapState :=
  (lineKeysOnExecute st.params rays stale, st)

/-- A region key entry of `GpuMapDetail::RegionKeyMap`
(`std::unordered_multimap<unsigned, glm::i16vec3>`): an unsigned hash paired
with a region coordinate. -/
abbrev RegionEntry : Type := ℕ × (ℤ × ℤ × ℤ)

/-- From `GpuMapDetail::findRegion` (src/ohm/private/GpuMapDetail.h lines
81-96): the while loop starting at the first entry of the bucket run,
advancing while the hash matches but the region coordinate differs, then the
final check returning the entry only when both hash and coordinate match. -/
def findRegionScan (h : ℕ) (k : ℤ × ℤ × ℤ) : List RegionEntry → Option RegionEntry
  | [] => none
  | e :: rest =>
    if e.1 = h then (if e.2 = k then some e else findRegionScan h k rest)
    else none

/-- From `GpuMapDetail::findRegion` (src/ohm/private/GpuMapDetail.h lines
81-96): `regions.find(region_hash)` positions the iterator at the first
entry whose hash equals `region_hash` (dropping the preceding entries), then
the scan runs; `none` models `regions.end()`. -/
def findRegion (regions : List RegionEntry) (h : ℕ) (k : ℤ × ℤ × ℤ) :
    Option RegionEntry :=
  findRegionScan h k (regions.dropWhile fun e => decide (e.1 ≠ h))

/-- The `std::unordered_multimap` iteration guarantee the lookup relies on:
all entries with hash `h` are adjacent, i.e. after the first maximal run of
hash-`h` entries no further entry has hash `h`. -/
def hashRunContiguous (h : ℕ) (regions : List RegionEntry) : Bool :=
  (((regions.dropWhile fun e => decide (e.1 ≠ h)).dropWhile
      fun e => decide (e.1 = h)).all fun e => decide (e.1 ≠ h))

/-- The standard map of the literal scenarios: resolution 1, origin 0,
32³ regions, hit 2, miss −1, clamps ±10, occupancy threshold 1. -/
def mapStd : MapParams :=
  ⟨1, 0, 0, 0, 32, 32, 32, 2, -1, -10, 10, 1⟩

/-- Scenario S4: the occupied voxel at local key (2,0,0) of region (0,0,0). -/
def key2 : Key := ⟨0, 0, 0, 2, 0, 0⟩

/-- Scenario S4: the occupied voxel at local key (4,0,0) of region (0,0,0). -/
def key4 : Key := ⟨0, 0, 0, 4, 0, 0⟩

/-- Scenario S4: a map whose only observed voxels are `key2` and `key4`,
both occupied at log-odds 2. -/
def mapS4 : VoxMap :=
  fun k => if k = key2 then some 2 else if k = key4 then some 2 else none

/-- Scenario S4: the clearing pattern with the single offset (5,0,0). -/
def clearingS4 : ClearingPattern := ⟨⟨[⟨5, 0, 0⟩]⟩, true⟩

/-- Scenario S5: the two query segments (0,0,0)→(3,0,0) and (0,0,0)→(0,2,0). -/
def raysS5 : List (Vec3 × Vec3) :=
  [(⟨0, 0, 0⟩, ⟨3, 0, 0⟩), (⟨0, 0, 0⟩, ⟨0, 2, 0⟩)]

/-- Concrete region table with a hash collision, for the lookup witness. -/
def regionsW : List RegionEntry :=
  [(5, (1, 0, 0)), (5, (2, 0, 0)), (7, (3, 0, 0))]

/-- Concrete flag set: `ClearOnly` alone. -/
def clearOnlyFlags : RayFlags := ⟨false, true, false, false, false, false⟩

end Ohm

namespace Ohm

/-- Evaluation helper: the floor of a rational bracketed by an integer. -/
theorem floor_eval (q : ℚ) (n : ℤ) (h1 : (n : ℚ) ≤ q) (h2 : q < (n : ℚ) + 1) :
    ⌊q⌋ = n := by
  rw [Int.floor_eq_iff]
  exact ⟨h1, h2⟩

/-- The voxel index of a voxel centre recovers the global index. -/
theorem axisIndex_centre (o r : ℚ) (hr : 0 < r) (i : ℤ) :
    axisIndex o r (o + ((i : ℚ) + 1 / 2) * r) = i := by
  unfold axisIndex
  have hr0 : r ≠ 0 := ne_of_gt hr
  have h : (o + ((i : ℚ) + 1 / 2) * r - o) / r = (i : ℚ) + 1 / 2 := by
    field_simp
    ring
  rw [h, add_comm ((i : ℚ)) (1 / 2), Int.floor_add_int]
  have hhalf : ⌊(1 / 2 : ℚ)⌋ = 0 := floor_eval _ _ (by norm_num) (by norm_num)
  omega

/-- Region/local decomposition inverts the flattening of a valid key axis. -/
theorem axis_decompose (dim : ℕ) (reg : ℤ) (loc : ℕ) (hl : loc < dim) :
    (reg * (dim : ℤ) + (loc : ℤ)) / (dim : ℤ) = reg ∧
      ((reg * (dim : ℤ) + (loc : ℤ)) % (dim : ℤ)).toNat = loc := by
  have hd : (dim : ℤ) ≠ 0 := by omega
  constructor
  · rw [add_comm, Int.add_mul_ediv_right _ _ hd,
      Int.ediv_eq_zero_of_lt (Int.natCast_nonneg loc) (by exact_mod_cast hl)]
    ring
  · rw [add_comm, mul_comm]
    rw [Int.add_mul_emod_self_left,
      Int.emod_eq_of_lt (Int.natCast_nonneg loc) (by exact_mod_cast hl),
      Int.toNat_natCast]

/-- Recomposing region and local coordinates recovers the global index. -/
theorem axis_recompose (dim : ℕ) (hd : 0 < dim) (i : ℤ) :
    (i / (dim : ℤ)) * (dim : ℤ) + (((i % (dim : ℤ)).toNat : ℕ) : ℤ) = i := by
  have hd0 : (dim : ℤ) ≠ 0 := by omega
  have h0 : 0 ≤ i % (dim : ℤ) := Int.emod_nonneg i hd0
  rw [Int.toNat_of_nonneg h0, mul_comm]
  exact Int.ediv_add_emod i (dim : ℤ)

/-- The centre of the voxel containing `p` is within half a voxel of `p`. -/
theorem axisCentre_close (o r p : ℚ) (hr : 0 < r) :
    |o + ((axisIndex o r p : ℚ) + 1 / 2) * r - p| ≤ r / 2 := by
  have hr0 : r ≠ 0 := ne_of_gt hr
  have hx : ((p - o) / r) * r = p - o := div_mul_cancel₀ _ hr0
  have hfr : axisIndex o r p = ⌊(p - o) / r⌋ := rfl
  have hexpr : o + ((axisIndex o r p : ℚ) + 1 / 2) * r - p =
      (1 / 2 - Int.fract ((p - o) / r)) * r := by
    rw [hfr, Int.fract]
    nlinarith [hx]
  rw [hexpr, abs_mul, abs_of_pos hr]
  have h1 : |1 / 2 - Int.fract ((p - o) / r)| ≤ 1 / 2 := by
    have h2 := Int.fract_nonneg ((p - o) / r)
    have h3 := Int.fract_lt_one ((p - o) / r)
    rw [abs_le]
    constructor <;> linarith
  nlinarith

/-- C7: for every key `k`, `voxelKey (voxelCentre k) = k`, and for every
point `p`, each coordinate of `voxelCentre (voxelKey p)` differs from the
corresponding coordinate of `p` by at most half the resolution. -/
theorem voxelKey_voxelCentre_roundtrip (m : MapParams) (k : Key) (p : Vec3)
    (hr : 0 < m.resolution)
    (hdx : 0 < m.dimX) (hdy : 0 < m.dimY) (hdz : 0 < m.dimZ)
    (hkx : k.lx < m.dimX) (hky : k.ly < m.dimY) (hkz : k.lz < m.dimZ) :
    voxelKey m (voxelCentre m k) = k ∧
      |(voxelCentre m (voxelKey m p)).x - p.x| ≤ m.resolution / 2 ∧
      |(voxelCentre m (voxelKey m p)).y - p.y| ≤ m.resolution / 2 ∧
      |(voxelCentre m (voxelKey m p)).z - p.z| ≤ m.resolution / 2 := by
  constructor
  · show keyOfIndices m _ _ _ = k
    rw [show (voxelCentre m k).x = m.originX + ((keyIndexX m k : ℚ) + 1 / 2) * m.resolution from rfl,
      show (voxelCentre m k).y = m.originY + ((keyIndexY m k : ℚ) + 1 / 2) * m.resolution from rfl,
      show (voxelCentre m k).z = m.originZ + ((keyIndexZ m k : ℚ) + 1 / 2) * m.resolution from rfl,
      axisIndex_centre _ _ hr, axisIndex_centre _ _ hr, axisIndex_centre _ _ hr]
    have ex := axis_decompose m.dimX k.rx k.lx hkx
    have ey := axis_decompose m.dimY k.ry k.ly hky
    have ez := axis_decompose m.dimZ k.rz k.lz hkz
    unfold keyOfIndices keyIndexX keyIndexY keyIndexZ
    cases k
    simp only at ex ey ez ⊢
    rw [ex.1, ex.2, ey.1, ey.2, ez.1, ez.2]
  · have hx := axisCentre_close m.originX m.resolution p.x hr
    have hy := axisCentre_close m.originY m.resolution p.y hr
    have hz := axisCentre_close m.originZ m.resolution p.z hr
    have rx : keyIndexX m (voxelKey m p) = axisIndex m.originX m.resolution p.x := by
      unfold keyIndexX voxelKey keyOfIndices
      exact axis_recompose m.dimX hdx _
    have ry : keyIndexY m (voxelKey m p) = axisIndex m.originY m.resolution p.y := by
      unfold keyIndexY voxelKey keyOfIndices
      exact axis_recompose m.dimY hdy _
    have rz : keyIndexZ m (voxelKey m p) = axisIndex m.originZ m.resolution p.z := by
      unfold keyIndexZ voxelKey keyOfIndices
      exact axis_recompose m.dimZ hdz _
    refine ⟨?_, ?_, ?_⟩
    · rw [show (voxelCentre m (voxelKey m p)).x =
        m.originX + ((keyIndexX m (voxelKey m p) : ℚ) + 1 / 2) * m.resolution from rfl, rx]
      exact hx
    · rw [show (voxelCentre m (voxelKey m p)).y =
        m.originY + ((keyIndexY m (voxelKey m p) : ℚ) + 1 / 2) * m.resolution from rfl, ry]
      exact hy
    · rw [show (voxelCentre m (voxelKey m p)).z =
        m.originZ + ((keyIndexZ m (voxelKey m p) : ℚ) + 1 / 2) * m.resolution from rfl, rz]
      exact hz

/-- Witness for C7, at the standard map, the key (0,0,0,2,0,0) and the point
(5/2, −3, 7). -/
theorem voxelKey_voxelCentre_roundtrip_witness :
    0 < mapStd.resolution ∧ 0 < mapStd.dimX ∧ key2.lx < mapStd.dimX ∧
      (voxelKey mapStd (voxelCentre mapStd key2) = key2 ∧
        |(voxelCentre mapStd (voxelKey mapStd ⟨5 / 2, -3, 7⟩)).x - (Vec3.mk (5 / 2) (-3) 7).x| ≤
          mapStd.resolution / 2 ∧
        |(voxelCentre mapStd (voxelKey mapStd ⟨5 / 2, -3, 7⟩)).y - (Vec3.mk (5 / 2) (-3) 7).y| ≤
          mapStd.resolution / 2 ∧
        |(voxelCentre mapStd (voxelKey mapStd ⟨5 / 2, -3, 7⟩)).z - (Vec3.mk (5 / 2) (-3) 7).z| ≤
          mapStd.resolution / 2) :=
  ⟨by decide, by decide, by decide,
    voxelKey_voxelCentre_roundtrip mapStd key2 ⟨5 / 2, -3, 7⟩ (by decide) (by decide)
      (by decide) (by decide) (by decide) (by decide) (by decide)⟩

/-- Clamped values land inside the clamp interval. -/
theorem clampValue_bounds (m : MapParams) (h : m.minValue ≤ m.maxValue) (v : ℚ) :
    m.minValue ≤ clampValue m v ∧ clampValue m v ≤ m.maxValue := by
  unfold clampValue
  exact ⟨le_min h (le_max_left _ _), min_le_left _ _⟩

/-- A miss update writes either the old value or a clamped value. -/
theorem missVoxel_clamped (m : MapParams) (f : RayFlags)
    (h : m.minValue ≤ m.maxValue) (v : Option ℚ)
    (hv : ∀ w, v = some w → m.minValue ≤ w ∧ w ≤ m.maxValue) :
    ∀ w, missVoxel m f v = some w → m.minValue ≤ w ∧ w ≤ m.maxValue := by
  intro w hw
  unfold missVoxel at hw
  split at hw
  · exact hv w hw
  · cases hw
    exact clampValue_bounds m h _

/-- A hit update writes either the old value or a clamped value. -/
theorem hitVoxel_clamped (m : MapParams) (f : RayFlags)
    (h : m.minValue ≤ m.maxValue) (v : Option ℚ)
    (hv : ∀ w, v = some w → m.minValue ≤ w ∧ w ≤ m.maxValue) :
    ∀ w, hitVoxel m f v = some w → m.minValue ≤ w ∧ w ≤ m.maxValue := by
  intro w hw
  unfold hitVoxel at hw
  split at hw
  · exact hv w hw
  · cases hw
    exact clampValue_bounds m h _

/-- An endpoint update writes either the old value or a clamped value. -/
theorem sampleVoxel_clamped (m : MapParams) (f : RayFlags)
    (h : m.minValue ≤ m.maxValue) (v : Option ℚ)
    (hv : ∀ w, v = some w → m.minValue ≤ w ∧ w ≤ m.maxValue) :
    ∀ w, sampleVoxel m f v = some w → m.minValue ≤ w ∧ w ≤ m.maxValue := by
  intro w hw
  unfold sampleVoxel at hw
  split at hw
  · exact hv w hw
  · split at hw
    · exact missVoxel_clamped m f h v hv w hw
    · exact hitVoxel_clamped m f h v hv w hw

/-- Point updates with in-range values preserve the clamping invariant. -/
theorem updateVoxel_clamped (m : MapParams) (M : VoxMap) (k : Key) (v : Option ℚ)
    (hM : valuesClamped m M)
    (hv : ∀ w, v = some w → m.minValue ≤ w ∧ w ≤ m.maxValue) :
    valuesClamped m (updateVoxel M k v) := by
  intro k2 w hw
  unfold updateVoxel at hw
  split at hw
  · exact hv w hw
  · exact hM k2 w hw

/-- Walking one ray preserves the clamping invariant. -/
theorem walkUpdate_clamped (m : MapParams) (f : RayFlags)
    (h : m.minValue ≤ m.maxValue) (keys : List Key) :
    ∀ (M : VoxMap) (first : Bool), valuesClamped m M →
      valuesClamped m (walkUpdate m f M keys first) := by
  induction keys with
  | nil =>
    intro M first hM
    simpa [walkUpdate] using hM
  | cons k rest ih =>
    intro M first hM
    cases rest with
    | nil =>
      simp only [walkUpdate]
      split
      · exact hM
      · exact updateVoxel_clamped m M k _ hM (sampleVoxel_clamped m f h _ (hM k))
    | cons k2 rest2 =>
      simp only [walkUpdate]
      split
      · exact hM
      · apply ih
        split
        · exact hM
        · exact updateVoxel_clamped m M k _ hM (missVoxel_clamped m f h _ (hM k))

/-- Integrating a batch of rays preserves the clamping invariant. -/
theorem integrateRays_clamped_step (m : MapParams) (f : RayFlags)
    (h : m.minValue ≤ m.maxValue) (rays : List (Vec3 × Vec3)) :
    ∀ M : VoxMap, valuesClamped m M → valuesClamped m (integrateRays m f rays M) := by
  induction rays with
  | nil =>
    intro M hM
    simpa [integrateRays] using hM
  | cons r rest ih =>
    intro M hM
    show valuesClamped m (List.foldl _ _ (r :: rest))
    rw [List.foldl_cons]
    exact ih _ (walkUpdate_clamped m f h _ M true hM)

/-- C2: after any sequence of `integrate_rays` updates (any flags, any rays)
starting from the fresh map, every voxel is either `UNOBSERVED` or holds a
value in `[min_value, max_value]`. -/
theorem integrateRays_values_clamped (m : MapParams)
    (h : m.minValue ≤ m.maxValue)
    (batches : List (RayFlags × List (Vec3 × Vec3))) :
    valuesClamped m
      (batches.foldl (fun M b => integrateRays m b.1 b.2 M) emptyVoxMap) := by
  have base : valuesClamped m emptyVoxMap := by
    intro k v hv
    cases hv
  have general : ∀ (bs : List (RayFlags × List (Vec3 × Vec3))) (M : VoxMap),
      valuesClamped m M →
        valuesClamped m (bs.foldl (fun M2 b => integrateRays m b.1 b.2 M2) M) := by
    intro bs
    induction bs with
    | nil => intro M hM; simpa using hM
    | cons b rest ih =>
      intro M hM
      rw [List.foldl_cons]
      exact ih _ (integrateRays_clamped_step m b.1 h b.2 M hM)
  exact general batches emptyVoxMap base

/-- Witness for C2, at the standard map and a one-batch, one-ray sequence. -/
theorem integrateRays_values_clamped_witness :
    mapStd.minValue ≤ mapStd.maxValue ∧
      valuesClamped mapStd
        ([(clearOnlyFlags, [(⟨0, 0, 0⟩, ⟨1, 1, 1⟩)])].foldl
          (fun M b => integrateRays mapStd b.1 b.2 M) emptyVoxMap) :=
  ⟨by decide, integrateRays_values_clamped mapStd (by decide) _⟩

/-- The identity quaternion rotates every vector to itself. -/
theorem rotateVec_identity (v : Vec3) : rotateVec identityQuaternion v = v := by
  cases v
  simp [rotateVec, identityQuaternion, cross, smul, vadd]

/-- Unit scaling is the identity. -/
theorem smul_one_vec (v : Vec3) : smul 1 v = v := by
  cases v
  simp [smul]

/-- Translating by the zero vector is the identity. -/
theorem vadd_zero_vec (v : Vec3) : vadd ⟨0, 0, 0⟩ v = v := by
  cases v
  simp [vadd]

/-- The ray array built from a pattern has twice as many points. -/
theorem buildRays_length (p : RayPattern) (position : Vec3)
    (rotation : Quaternion) (scaling : ℚ) :
    (buildRays p position rotation scaling).length = 2 * p.points.length := by
  unfold buildRays
  induction p.points with
  | nil => simp
  | cons pt rest ih =>
    simp only [List.flatMap_cons, List.length_append, ih, List.length_cons]
    simp
    ring

/-- Even entries of the built ray array hold the position. -/
theorem buildRays_getD_even (position : Vec3) (rotation : Quaternion)
    (scaling : ℚ) :
    ∀ (pts : List Vec3) (i : ℕ), i < pts.length →
      (buildRays ⟨pts⟩ position rotation scaling).getD (2 * i) ⟨0, 0, 0⟩ = position := by
  intro pts
  induction pts with
  | nil => intro i hi; cases hi
  | cons pt rest ih =>
    intro i hi
    cases i with
    | zero => rfl
    | succ j =>
      have h2 : 2 * (j + 1) = 2 * j + 1 + 1 := by ring
      show (buildRays ⟨pt :: rest⟩ position rotation scaling).getD (2 * (j + 1)) _ = _
      rw [h2]
      show (position :: vadd position (smul scaling (rotateVec rotation pt)) ::
        buildRays ⟨rest⟩ position rotation scaling).getD (2 * j + 1 + 1) _ = _
      rw [List.getD_cons_succ, List.getD_cons_succ]
      exact ih j (by simpa using Nat.lt_of_succ_lt_succ hi)

/-- Odd entries of the built ray array hold the transformed offsets. -/
theorem buildRays_getD_odd (position : Vec3) (rotation : Quaternion)
    (scaling : ℚ) :
    ∀ (pts : List Vec3) (i : ℕ), i < pts.length →
      (buildRays ⟨pts⟩ position rotation scaling).getD (2 * i + 1) ⟨0, 0, 0⟩ =
        vadd position (smul scaling (rotateVec rotation (pts.getD i ⟨0, 0, 0⟩))) := by
  intro pts
  induction pts with
  | nil => intro i hi; cases hi
  | cons pt rest ih =>
    intro i hi
    cases i with
    | zero => rfl
    | succ j =>
      have h2 : 2 * (j + 1) + 1 = 2 * j + 1 + 1 + 1 := by ring
      show (buildRays ⟨pt :: rest⟩ position rotation scaling).getD (2 * (j + 1) + 1) _ = _
      rw [h2]
      show (position :: vadd position (smul scaling (rotateVec rotation pt)) ::
        buildRays ⟨rest⟩ position rotation scaling).getD (2 * j + 1 + 1 + 1) _ = _
      rw [List.getD_cons_succ, List.getD_cons_succ]
      exact ih j (by simpa using Nat.lt_of_succ_lt_succ hi)

/-- C4: for every pattern and transform, `buildRays` yields `2 × point_count`
entries with every even entry equal to the position and every odd entry equal
to `position + scaling · (rotation · offset)`; with identity rotation, unit
scaling and zero position the odd entries are the stored offsets. -/
theorem buildRays_layout (p : RayPattern) (position : Vec3)
    (rotation : Quaternion) (scaling : ℚ) :
    (buildRays p position rotation scaling).length = 2 * p.points.length ∧
      (∀ i, i < p.points.length →
        (buildRays p position rotation scaling).getD (2 * i) ⟨0, 0, 0⟩ = position ∧
          (buildRays p position rotation scaling).getD (2 * i + 1) ⟨0, 0, 0⟩ =
            vadd position (smul scaling (rotateVec rotation (p.points.getD i ⟨0, 0, 0⟩)))) ∧
      (∀ i, i < p.points.length →
        (buildRays p ⟨0, 0, 0⟩ identityQuaternion 1).getD (2 * i + 1) ⟨0, 0, 0⟩ =
          p.points.getD i ⟨0, 0, 0⟩) := by
  obtain ⟨pts⟩ := p
  refine ⟨buildRays_length _ _ _ _, fun i hi => ⟨?_, ?_⟩, fun i hi => ?_⟩
  · exact buildRays_getD_even position rotation scaling pts i hi
  · exact buildRays_getD_odd position rotation scaling pts i hi
  · rw [buildRays_getD_odd ⟨0, 0, 0⟩ identityQuaternion 1 pts i hi,
      rotateVec_identity, smul_one_vec, vadd_zero_vec]

/-- Witness for C4, at the single-offset pattern of scenario S4. -/
theorem buildRays_layout_witness :
    0 < clearingS4.pattern.points.length ∧
      (buildRays clearingS4.pattern ⟨1, 2, 3⟩ identityQuaternion 2).length =
        2 * clearingS4.pattern.points.length ∧
      (buildRays clearingS4.pattern ⟨1, 2, 3⟩ identityQuaternion 2).getD (2 * 0) ⟨0, 0, 0⟩ =
        ⟨1, 2, 3⟩ ∧
      (buildRays clearingS4.pattern ⟨0, 0, 0⟩ identityQuaternion 1).getD (2 * 0 + 1) ⟨0, 0, 0⟩ =
        clearingS4.pattern.points.getD 0 ⟨0, 0, 0⟩ :=
  ⟨by decide,
    (buildRays_layout clearingS4.pattern ⟨1, 2, 3⟩ identityQuaternion 2).1,
    ((buildRays_layout clearingS4.pattern ⟨1, 2, 3⟩ identityQuaternion 2).2.1 0 (by decide)).1,
    (buildRays_layout clearingS4.pattern ⟨1, 2, 3⟩ identityQuaternion 2).2.2 0 (by decide)⟩

/-- C5: `ClearingPattern::apply` builds the ray set from the wrapped pattern
with exactly the given transform arguments and integrates that ray set with
exactly `EndPointAsFree | StopOnFirstOccupied | ClearOnly`. -/
theorem clearingPattern_apply_rays_and_flags (cp : ClearingPattern)
    (m : MapParams) (M : VoxMap) (position : Vec3) (rotation : Quaternion)
    (scaling : ℚ) :
    ClearingPattern.apply cp m M position rotation scaling =
      integrateRays m
        { stopOnFirstOccupied := true, clearOnly := true, endPointAsFree := true,
          excludeOrigin := false, excludeSample := false, excludeUnobserved := false }
        (pairRays (buildRays cp.pattern position rotation scaling)) M :=
  rfl

/-- C1 counterexample: with the flag set `{ClearOnly}` alone,
`GpuNdtMap::finaliseBatch` still enqueues the `ndtHit` kernel, which applies
hit updates to the sample voxels. -/
theorem ndtHitKernel_clearOnly_counterexample :
    clearOnlyFlags.clearOnly = true ∧
      ndtHitKernelEnqueued clearOnlyFlags = true := by
  decide

/-- C1 amended: when the flags include `ClearOnly` together with
`EndPointAsFree` or `ExcludeSample` (the former is the combination
`ClearingPattern` uses), the hit kernel is not enqueued, so no hit update is
applied at the endpoint; in the `EndPointAsFree` case the flags reach the
miss kernel unchanged, which treats the endpoint as a miss. -/
theorem ndtHitKernel_clearOnly_amended (f : RayFlags) (_hc : f.clearOnly = true)
    (h : f.endPointAsFree = true ∨ f.excludeSample = true) :
    ndtHitKernelEnqueued f = false ∧
      (f.endPointAsFree = true → ndtMissKernelFlags f = f) := by
  constructor
  · unfold ndtHitKernelEnqueued
    rcases h with h | h <;> simp [h]
  · intro he
    unfold ndtMissKernelFlags
    simp [he]

/-- Witness for C1 (amended), at the `ClearingPattern` flag set. -/
theorem ndtHitKernel_clearOnly_amended_witness :
    clearingPatternFlags.clearOnly = true ∧
      (clearingPatternFlags.endPointAsFree = true ∨
        clearingPatternFlags.excludeSample = true) ∧
      (ndtHitKernelEnqueued clearingPatternFlags = false ∧
        (clearingPatternFlags.endPointAsFree = true →
          ndtMissKernelFlags clearingPatternFlags = clearingPatternFlags)) :=
  ⟨rfl, Or.inl rfl,
    ndtHitKernel_clearOnly_amended clearingPatternFlags rfl (Or.inl rfl)⟩

/-- C9: executing a line-keys query leaves the map state (parameters, chunk
set and every voxel value) completely unchanged. -/
theorem lineKeysQuery_map_unchanged (st : MapState) (rays : List (Vec3 × Vec3))
    (stale : List Key) :
    (lineKeysOnExecuteState st rays stale).2 = st :=
  rfl

/-- The scan loop only ever returns an entry matching both hash and key. -/
theorem findRegionScan_sound (h : ℕ) (k : ℤ × ℤ × ℤ) :
    ∀ (l : List RegionEntry) (e : RegionEntry),
      findRegionScan h k l = some e → e = (h, k) := by
  intro l
  induction l with
  | nil => intro e he; cases he
  | cons a rest ih =>
    intro e he
    unfold findRegionScan at he
    split at he
    · split at he
      · cases he
        rename_i h1 h2
        cases a
        simp only [Prod.mk.injEq]
        exact ⟨h1, h2⟩
      · exact ih e he
    · cases he

/-- On a hash-contiguous run, the scan finds the matching entry exactly when
it is present. -/
theorem findRegionScan_complete (h : ℕ) (k : ℤ × ℤ × ℤ) :
    ∀ l : List RegionEntry,
      ((l.dropWhile fun e => decide (e.1 = h)).all fun e => decide (e.1 ≠ h)) = true →
        (findRegionScan h k l = some (h, k) ↔ (h, k) ∈ l) := by
  intro l
  induction l with
  | nil => intro _; simp [findRegionScan]
  | cons a rest ih =>
    intro hcont
    by_cases ha : a.1 = h
    · have hcont2 : ((rest.dropWhile fun e => decide (e.1 = h)).all
          fun e => decide (e.1 ≠ h)) = true := by
        rwa [List.dropWhile_cons, if_pos (by simpa using ha)] at hcont
      by_cases hk : a.2 = k
      · have hae : a = (h, k) := by
          cases a
          simp only [Prod.mk.injEq]
          exact ⟨ha, hk⟩
        subst hae
        simp [findRegionScan]
      · have hstep : findRegionScan h k (a :: rest) = findRegionScan h k rest := by
          simp only [findRegionScan]
          rw [if_pos ha, if_neg hk]
        rw [hstep, ih hcont2]
        constructor
        · intro hm
          exact List.mem_cons_of_mem a hm
        · intro hm
          rcases List.mem_cons.mp hm with hm | hm
          · exfalso
            apply hk
            rw [← hm]
          · exact hm
    · have hnone : findRegionScan h k (a :: rest) = none := by
        unfold findRegionScan
        rw [if_neg ha]
      rw [hnone]
      have hall : ∀ e ∈ a :: rest, e.1 ≠ h := by
        intro e hme
        have hd : (a :: rest).dropWhile (fun e => decide (e.1 = h)) = a :: rest := by
          rw [List.dropWhile_cons, if_neg (by simpa using ha)]
        rw [hd] at hcont
        simpa using List.all_eq_true.mp hcont e hme
      constructor
      · intro he
        cases he
      · intro hm
        exact absurd rfl (hall (h, k) hm)

/-- Membership of an entry with hash `h` is unaffected by dropping the
leading entries with a different hash. -/
theorem mem_dropWhile_ne_hash (h : ℕ) (k : ℤ × ℤ × ℤ) :
    ∀ l : List RegionEntry,
      ((h, k) ∈ l ↔ (h, k) ∈ l.dropWhile fun e => decide (e.1 ≠ h)) := by
  intro l
  induction l with
  | nil => simp
  | cons a rest ih =>
    by_cases ha : a.1 = h
    · rw [List.dropWhile_cons, if_neg (by simpa using ha)]
    · rw [List.dropWhile_cons, if_pos (by simpa using ha)]
      rw [← ih]
      constructor
      · intro hm
        rcases List.mem_cons.mp hm with hm | hm
        · exfalso
          apply ha
          rw [← hm]
        · exact hm
      · intro hm
        exact List.mem_cons_of_mem a hm

/-- C10: on a region multimap whose hash-`h` entries are adjacent (the
`std::unordered_multimap` guarantee), `findRegion` returns the entry whose
hash and region coordinate both match when one exists and `end()` otherwise;
a colliding entry with a different region coordinate is never returned. -/
theorem findRegion_correct (regions : List RegionEntry) (h : ℕ)
    (k : ℤ × ℤ × ℤ) (hcont : hashRunContiguous h regions = true) :
    ((h, k) ∈ regions → findRegion regions h k = some (h, k)) ∧
      ((h, k) ∉ regions → findRegion regions h k = none) ∧
      (∀ e, findRegion regions h k = some e → e = (h, k)) := by
  have hiff : findRegion regions h k = some (h, k) ↔ (h, k) ∈ regions := by
    unfold findRegion
    rw [findRegionScan_complete h k _ hcont]
    exact (mem_dropWhile_ne_hash h k regions).symm
  have hsound : ∀ e, findRegion regions h k = some e → e = (h, k) :=
    fun e he => findRegionScan_sound h k _ e he
  refine ⟨fun hm => hiff.mpr hm, fun hm => ?_, hsound⟩
  cases hres : findRegion regions h k with
  | none => rfl
  | some e =>
    exfalso
    apply hm
    have he := hsound e hres
    subst he
    exact hiff.mp hres

/-- Witness for C10, at a table with a hash collision: hash 5 holds regions
(1,0,0) and (2,0,0); looking up (5, (2,0,0)) must skip the collision. -/
theorem findRegion_correct_witness :
    hashRunContiguous 5 regionsW = true ∧
      findRegion regionsW 5 (2, 0, 0) = some (5, (2, 0, 0)) :=
  ⟨by decide, (findRegion_correct regionsW 5 (2, 0, 0) (by decide)).1 (by decide)⟩

/-- Closed form of the query fold's per-segment counts. -/
theorem lineKeysFold_counts (m : MapParams) :
    ∀ (rays : List (Vec3 × Vec3)) (acc : LineKeysResult),
      (rays.foldl (lineKeysStep m) acc).resultCounts =
        acc.resultCounts ++ rays.map fun r => (segmentKeysOf m r).length := by
  intro rays
  induction rays with
  | nil => intro acc; simp
  | cons r rest ih =>
    intro acc
    rw [List.foldl_cons, ih]
    simp [lineKeysStep]

/-- Closed form of the query fold's global key list. -/
theorem lineKeysFold_inter (m : MapParams) :
    ∀ (rays : List (Vec3 × Vec3)) (acc : LineKeysResult),
      (rays.foldl (lineKeysStep m) acc).intersectedVoxels =
        acc.intersectedVoxels ++ rays.flatMap (segmentKeysOf m) := by
  intro rays
  induction rays with
  | nil => intro acc; simp
  | cons r rest ih =>
    intro acc
    rw [List.foldl_cons, ih]
    simp [lineKeysStep]

/-- Closed form of the query fold's per-segment start indices. -/
theorem lineKeysFold_indices (m : MapParams) :
    ∀ (rays : List (Vec3 × Vec3)) (acc : LineKeysResult),
      (rays.foldl (lineKeysStep m) acc).resultIndices =
        acc.resultIndices ++ (List.range rays.length).map
          fun i => acc.intersectedVoxels.length +
            ((rays.take i).flatMap (segmentKeysOf m)).length := by
  intro rays
  induction rays with
  | nil => intro acc; simp
  | cons r rest ih =>
    intro acc
    rw [List.foldl_cons, ih]
    rw [List.length_cons, List.range_succ_eq_map]
    simp only [lineKeysStep, List.map_cons, List.map_map, List.take_succ_cons,
      List.flatMap_cons, List.length_append, List.take_zero, List.flatMap_nil,
      List.length_nil, Nat.add_zero, Function.comp]
    rw [List.append_assoc]
    simp [add_assoc]

/-- Concrete walk: (0,0,0)→(3,0,0) at resolution 1 visits x-steps 0..3. -/
theorem walk_x3 : calculateSegmentKeys mapStd ⟨0, 0, 0⟩ ⟨3, 0, 0⟩ =
    [⟨0, 0, 0, 0, 0, 0⟩, ⟨0, 0, 0, 1, 0, 0⟩, ⟨0, 0, 0, 2, 0, 0⟩, ⟨0, 0, 0, 3, 0, 0⟩] := by
  have h0 : axisIndex 0 1 0 = 0 := floor_eval _ _ (by norm_num) (by norm_num)
  have h3 : axisIndex 0 1 3 = 3 := floor_eval _ _ (by norm_num) (by norm_num)
  norm_num [calculateSegmentKeys, walkIndices, mapStd, h0, h3, ddaAxisInit,
    ddaLoop, ddaStep, ddaChoose, oleq, bump, keyOfIndices, Prod.ext_iff]
  omega

/-- Concrete walk: (0,0,0)→(0,2,0) at resolution 1 visits y-steps 0..2. -/
theorem walk_y2 : calculateSegmentKeys mapStd ⟨0, 0, 0⟩ ⟨0, 2, 0⟩ =
    [⟨0, 0, 0, 0, 0, 0⟩, ⟨0, 0, 0, 0, 1, 0⟩, ⟨0, 0, 0, 0, 2, 0⟩] := by
  have h0 : axisIndex 0 1 0 = 0 := floor_eval _ _ (by norm_num) (by norm_num)
  have h2 : axisIndex 0 1 2 = 2 := floor_eval _ _ (by norm_num) (by norm_num)
  norm_num [calculateSegmentKeys, walkIndices, mapStd, h0, h2, ddaAxisInit,
    ddaLoop, ddaStep, ddaChoose, oleq, bump, keyOfIndices, Prod.ext_iff]
  omega

/-- Concrete walk: (0,0,0)→(5,0,0) at resolution 1 visits x-steps 0..5. -/
theorem walk_x5 : calculateSegmentKeys mapStd ⟨0, 0, 0⟩ ⟨5, 0, 0⟩ =
    [⟨0, 0, 0, 0, 0, 0⟩, ⟨0, 0, 0, 1, 0, 0⟩, ⟨0, 0, 0, 2, 0, 0⟩,
      ⟨0, 0, 0, 3, 0, 0⟩, ⟨0, 0, 0, 4, 0, 0⟩, ⟨0, 0, 0, 5, 0, 0⟩] := by
  have h0 : axisIndex 0 1 0 = 0 := floor_eval _ _ (by norm_num) (by norm_num)
  have h5 : axisIndex 0 1 5 = 5 := floor_eval _ _ (by norm_num) (by norm_num)
  norm_num [calculateSegmentKeys, walkIndices, mapStd, h0, h5, ddaAxisInit,
    ddaLoop, ddaStep, ddaChoose, oleq, bump, keyOfIndices, Prod.ext_iff]
  omega

/-- C3: for every batch of segments, the query produces exactly one
(start index, count) pair per segment in input order, the start index of
segment `i` is the sum of the counts of segments `0..i-1`, the global key
list is the concatenation of the per-segment key lists in input order, and
the literal batch of scenario S5 yields indices `[0, 4]`, counts `[4, 3]`
and the x-steps 0..3 followed by the y-steps 0..2. -/
theorem lineKeysQuery_batch_layout :
    (∀ (m : MapParams) (rays : List (Vec3 × Vec3)),
      (lineKeysOnExecute m rays []).resultIndices.length = rays.length ∧
        (lineKeysOnExecute m rays []).resultCounts.length = rays.length ∧
        (lineKeysOnExecute m rays []).intersectedVoxels =
          rays.flatMap (segmentKeysOf m) ∧
        ∀ i, i < rays.length →
          (lineKeysOnExecute m rays []).resultIndices.getD i 0 =
            ((lineKeysOnExecute m rays []).resultCounts.take i).sum) ∧
      (lineKeysOnExecute mapStd raysS5 []).resultIndices = [0, 4] ∧
      (lineKeysOnExecute mapStd raysS5 []).resultCounts = [4, 3] ∧
      (lineKeysOnExecute mapStd raysS5 []).intersectedVoxels =
        [⟨0, 0, 0, 0, 0, 0⟩, ⟨0, 0, 0, 1, 0, 0⟩, ⟨0, 0, 0, 2, 0, 0⟩, ⟨0, 0, 0, 3, 0, 0⟩,
          ⟨0, 0, 0, 0, 0, 0⟩, ⟨0, 0, 0, 0, 1, 0⟩, ⟨0, 0, 0, 0, 2, 0⟩] := by
  refine ⟨fun m rays => ?_, ?_, ?_, ?_⟩
  · have hind := lineKeysFold_indices m rays ⟨[], [], []⟩
    have hcnt := lineKeysFold_counts m rays ⟨[], [], []⟩
    have hint := lineKeysFold_inter m rays ⟨[], [], []⟩
    simp only [List.nil_append, List.length_nil, Nat.zero_add] at hind hcnt hint
    refine ⟨?_, ?_, ?_, ?_⟩
    · show (lineKeysOnExecute m rays []).resultIndices.length = rays.length
      rw [show lineKeysOnExecute m rays [] = rays.foldl (lineKeysStep m) ⟨[], [], []⟩ from rfl,
        hind]
      simp
    · rw [show lineKeysOnExecute m rays [] = rays.foldl (lineKeysStep m) ⟨[], [], []⟩ from rfl,
        hcnt]
      simp
    · rw [show lineKeysOnExecute m rays [] = rays.foldl (lineKeysStep m) ⟨[], [], []⟩ from rfl,
        hint]
    · intro i hi
      rw [show lineKeysOnExecute m rays [] = rays.foldl (lineKeysStep m) ⟨[], [], []⟩ from rfl,
        hind, hcnt]
      rw [List.getD_eq_getElem?_getD, List.getElem?_map, List.getElem?_range hi]
      rw [← List.map_take]
      rw [show ∀ l : List (Vec3 × Vec3), (l.map fun r => (segmentKeysOf m r).length).sum =
          (l.flatMap (segmentKeysOf m)).length from fun l => by
        rw [List.length_flatMap]
        rfl]
      simp
  · norm_num [lineKeysOnExecute, lineKeysStep, raysS5, segmentKeysOf, walk_x3, walk_y2]
  · norm_num [lineKeysOnExecute, lineKeysStep, raysS5, segmentKeysOf, walk_x3, walk_y2]
  · norm_num [lineKeysOnExecute, lineKeysStep, raysS5, segmentKeysOf, walk_x3, walk_y2]

/-- Witness for C3, instantiating the prefix-sum property at segment 1 of the
scenario S5 batch. -/
theorem lineKeysQuery_batch_layout_witness :
    1 < raysS5.length ∧
      (lineKeysOnExecute mapStd raysS5 []).resultIndices.getD 1 0 =
        ((lineKeysOnExecute mapStd raysS5 []).resultCounts.take 1).sum :=
  ⟨by decide, (lineKeysQuery_batch_layout.1 mapStd raysS5).2.2.2 1 (by decide)⟩

/-- C6: applying the S4 clearing pattern (single offset (5,0,0), identity
rotation, unit scaling, position 0) to a map whose only occupied voxels are
at local keys (2,0,0) and (4,0,0) of region (0,0,0) halts the traversal at
(2,0,0): that voxel keeps its value and stays occupied, and (4,0,0) is
unchanged. -/
theorem clearingPattern_S4_stops (M : VoxMap)
    (h2 : isOccupied mapStd (M key2) = true)
    (_h4 : isOccupied mapStd (M key4) = true)
    (hother : ∀ k, k ≠ key2 → k ≠ key4 → isOccupied mapStd (M k) = false) :
    ClearingPattern.apply clearingS4 mapStd M ⟨0, 0, 0⟩ identityQuaternion 1 key2 = M key2 ∧
      ClearingPattern.apply clearingS4 mapStd M ⟨0, 0, 0⟩ identityQuaternion 1 key4 = M key4 ∧
      isOccupied mapStd
        (ClearingPattern.apply clearingS4 mapStd M ⟨0, 0, 0⟩ identityQuaternion 1 key2) =
        true := by
  have hrays : pairRays (buildRays clearingS4.pattern ⟨0, 0, 0⟩ identityQuaternion 1) =
      [(⟨0, 0, 0⟩, ⟨5, 0, 0⟩)] := by
    simp [clearingS4, buildRays, rotateVec_identity, smul_one_vec, vadd_zero_vec, pairRays]
  have step0 : ClearingPattern.apply clearingS4 mapStd M ⟨0, 0, 0⟩ identityQuaternion 1 =
      walkUpdate mapStd clearingPatternFlags M
        [⟨0, 0, 0, 0, 0, 0⟩, ⟨0, 0, 0, 1, 0, 0⟩, ⟨0, 0, 0, 2, 0, 0⟩,
          ⟨0, 0, 0, 3, 0, 0⟩, ⟨0, 0, 0, 4, 0, 0⟩, ⟨0, 0, 0, 5, 0, 0⟩] true := by
    unfold ClearingPattern.apply integrateRays integrateRay
    rw [hrays, List.foldl_cons, List.foldl_nil, walk_x5]
  have h2l : isOccupied mapStd (M ⟨0, 0, 0, 2, 0, 0⟩) = true := h2
  have hk0 : isOccupied mapStd (M ⟨0, 0, 0, 0, 0, 0⟩) = false :=
    hother _ (by decide) (by decide)
  have hk1 : isOccupied mapStd (M ⟨0, 0, 0, 1, 0, 0⟩) = false :=
    hother _ (by decide) (by decide)
  refine ⟨?_, ?_, ?_⟩
  · rw [step0]
    simp [walkUpdate, clearingPatternFlags, hk0, hk1, h2l, updateVoxel, Key.mk.injEq, key2]
  · rw [step0]
    simp [walkUpdate, clearingPatternFlags, hk0, hk1, h2l, updateVoxel, Key.mk.injEq, key4]
  · rw [step0]
    simp [walkUpdate, clearingPatternFlags, hk0, hk1, h2l, updateVoxel, Key.mk.injEq, key2]

/-- Witness for C6, at the concrete S4 map holding log-odds 2 at the two
occupied voxels. -/
theorem clearingPattern_S4_stops_witness :
    isOccupied mapStd (mapS4 key2) = true ∧
      isOccupied mapStd (mapS4 key4) = true ∧
      (ClearingPattern.apply clearingS4 mapStd mapS4 ⟨0, 0, 0⟩ identityQuaternion 1 key2 =
          mapS4 key2 ∧
        ClearingPattern.apply clearingS4 mapStd mapS4 ⟨0, 0, 0⟩ identityQuaternion 1 key4 =
          mapS4 key4 ∧
        isOccupied mapStd
          (ClearingPattern.apply clearingS4 mapStd mapS4 ⟨0, 0, 0⟩ identityQuaternion 1 key2) =
          true) :=
  ⟨by decide, by decide,
    clearingPattern_S4_stops mapS4 (by decide) (by decide)
      (fun k hx hy => by
        unfold mapS4
        rw [if_neg hx, if_neg hy]
        rfl)⟩

end Ohm
